import Mathlib

/-!
Verification of the smart-hls-transcoder decision engine and orchestrator.

The JavaScript sources are embedded shallowly:
* JS numbers are modelled as rationals (`ℚ`) and integer results as `ℤ`/`ℕ`;
  `Math.round x` is `⌊x + 1/2⌋` (JS rounds half toward positive infinity),
  `Math.max`/`Math.min` are `max`/`min`.
* JS `null`/absent values are `Option`; the truthiness test `!x` on a
  number-or-null is `x = none ∨ x = some 0`.
* `Promise.all` is modelled by slot-indexed delivery: each completing job
  writes its result into its own slot, and the resolved array is read out in
  slot order, whatever the completion order was.
-/

namespace HLS

/-- JS `Math.round`: round half toward positive infinity. -/
def jsRound (q : ℚ) : ℤ := ⌊q + 1/2⌋

/-- JS truthiness of a number-or-null: `null`, `undefined` and `0` are falsy. -/
def numTruthy : Option ℚ → Bool
  | none => false
  | some v => v != 0

/-! ### presets.js -/

/-- Result record of `getResolutionPreset` (src/lib/presets.js). -/
structure Resolution where
  width : ℤ
  height : ℤ
  deriving Repr, DecidableEq

/-- Shallow embedding of `getResolutionPreset(targetHeight, sourceAspectRatio)`
from src/lib/presets.js lines 26-45 (identical to the `Local` copy in
src/lib/transcoder.js lines 310-329). -/
def getResolutionPreset (targetHeight : ℤ) (sourceAspectRatio : ℚ) : Resolution :=
  let clampedAspectRatio : ℚ := max (1/2) (min 3 sourceAspectRatio)
  let targetWidth0 : ℤ := jsRound ((targetHeight : ℚ) * clampedAspectRatio)
  let targetWidth1 : ℤ := if targetWidth0 % 2 = 0 then targetWidth0 else targetWidth0 + 1
  let finalHeight : ℤ := if targetHeight % 2 = 0 then targetHeight else targetHeight + 1
  { width := max 16 targetWidth1, height := max 16 finalHeight }

/-- The maximum-bitrate tier table of the unknown-source branch of
`calculateOptimizedBitrate` (src/lib/presets.js lines 59-66). -/
def maxBitrateNoSource (targetHeight : ℚ) : ℚ :=
  if targetHeight > 4320 then 100000
  else if targetHeight > 2160 then 50000
  else if targetHeight > 1080 then 20000
  else if targetHeight > 720 then 10000
  else if targetHeight > 480 then 4000
  else if targetHeight > 360 then 2000
  else if targetHeight > 240 then 1000
  else 500

/-- Unknown-source branch of `calculateOptimizedBitrate`
(src/lib/presets.js lines 52-72). -/
def bitrateNoSource (targetHeight bandwidthRatio : ℚ) : ℤ :=
  let baseBitrate : ℤ := jsRound (targetHeight * targetHeight * (96/1000000) * 50)
  let adjustedBitrate : ℚ := (baseBitrate : ℚ) * bandwidthRatio
  let minBitrate : ℚ := max 50 (targetHeight * (2/10))
  jsRound (max minBitrate (min (maxBitrateNoSource targetHeight) adjustedBitrate))

/-- Five-tier non-linear compression factor keyed by
`heightRatio = targetHeight / sourceHeight` (src/lib/presets.js lines 85-100). -/
def compressionFactor (heightRatio : ℚ) : ℚ :=
  if heightRatio > 9/10 then 1
  else if heightRatio > 7/10 then 85/100
  else if heightRatio > 1/2 then 7/10
  else if heightRatio > 3/10 then 55/100
  else 4/10

/-- Resolution-tiered minimum-bitrate fraction of the known-source branch
(src/lib/presets.js lines 106-112). -/
def minFraction (targetHeight : ℚ) : ℚ :=
  if targetHeight > 1080 then 8/10
  else if targetHeight > 720 then 6/10
  else if targetHeight > 480 then 4/10
  else 2/10

/-- Resolution-tiered multiple of the source bitrate bounding the
known-source branch above (src/lib/presets.js lines 115-121). -/
def maxMultiple (targetHeight : ℚ) : ℚ :=
  if targetHeight > 4320 then 3
  else if targetHeight > 2160 then 5/2
  else if targetHeight > 1080 then 2
  else if targetHeight > 720 then 9/5
  else if targetHeight > 480 then 3/2
  else if targetHeight > 360 then 13/10
  else 6/5

/-- Known-source branch of `calculateOptimizedBitrate`
(src/lib/presets.js lines 74-128). -/
def bitrateKnownSource (targetHeight sourceBitrate sourceHeight bandwidthRatio : ℚ) : ℤ :=
  let scaledBitrate : ℚ :=
    sourceBitrate * ((targetHeight * targetHeight) / (sourceHeight * sourceHeight)) *
      compressionFactor (targetHeight / sourceHeight)
  let adjustedBitrate : ℚ := scaledBitrate * bandwidthRatio
  let minBitrate : ℚ := max 50 (targetHeight * minFraction targetHeight)
  let maxBitrate : ℚ := sourceBitrate * maxMultiple targetHeight
  jsRound (max minBitrate (min maxBitrate adjustedBitrate))

/-- Shallow embedding of `calculateOptimizedBitrate(targetHeight, sourceBitrate,
sourceHeight, bandwidthRatio)` from src/lib/presets.js lines 48-129 (identical
to the `Local` copy in src/lib/transcoder.js lines 332-406).  The guard
`!sourceBitrate || !sourceHeight` of the source is the JS truthiness test. -/
def calculateOptimizedBitrate (targetHeight : ℚ) (sourceBitrate : Option ℚ)
    (sourceHeight : Option ℚ) (bandwidthRatio : ℚ) : ℤ :=
  if numTruthy sourceBitrate && numTruthy sourceHeight then
    bitrateKnownSource targetHeight (sourceBitrate.getD 0) (sourceHeight.getD 0) bandwidthRatio
  else
    bitrateNoSource targetHeight bandwidthRatio

/-! ### utils (getGOPSize) -/

/-- The frame-rate-to-GOP table of `getGOPSize` (src/unnamed/part_000 lines 59-66). -/
def gopMap : List (ℚ × ℤ) := [(24, 48), (25, 50), (30, 60), (50, 100), (60, 120), (120, 240)]

/-- The closest-standard-frame-rate reduction of `getGOPSize`
(src/unnamed/part_000 lines 69-71): `Object.keys(gopMap)` in ascending order,
reduced keeping the earlier key on ties. -/
def closestStandardFPS (fps : ℚ) : ℚ :=
  [(25 : ℚ), 30, 50, 60, 120].foldl
    (fun prev curr => if |curr - fps| < |prev - fps| then curr else prev) 24

/-- Shallow embedding of `getGOPSize(fps)` from src/unnamed/part_000 lines
57-78.  `gopMap[standardFPS] || Math.round(fps * 2)` falls back when the
lookup is `undefined` or `0`; the result is clamped to `[24, 480]`. -/
def getGOPSize (fps : ℚ) : ℤ :=
  let standardFPS := closestStandardFPS fps
  let gopSize : ℤ :=
    match (gopMap.find? (fun p => p.1 == standardFPS)).map Prod.snd with
    | some v => if v = 0 then jsRound (fps * 2) else v
    | none => jsRound (fps * 2)
  max 24 (min 480 gopSize)

/-! ### analyzer.js (quality ladder selector) -/

/-- One catalog entry of the quality ladder (src/lib/analyzer.js). -/
structure Quality where
  height : ℕ
  name : String
  enabled : Bool
  deriving Repr, DecidableEq

/-- The extended quality catalog of `getOptimalQualities`
(src/lib/analyzer.js lines 417-436), strictly descending by height. -/
def allQualities : List Quality :=
  [⟨8640, "8K+", true⟩, ⟨7920, "8K", true⟩, ⟨7200, "7K", true⟩, ⟨6480, "6K", true⟩,
   ⟨5760, "5K", true⟩, ⟨5040, "5K-", true⟩, ⟨4320, "4K+", true⟩, ⟨3600, "4K", true⟩,
   ⟨2880, "QHD+", true⟩, ⟨2160, "4K", true⟩, ⟨1440, "QHD", true⟩, ⟨1080, "1080p", true⟩,
   ⟨720, "720p", true⟩, ⟨540, "540p", true⟩, ⟨480, "480p", true⟩, ⟨360, "360p", true⟩,
   ⟨240, "240p", true⟩, ⟨144, "144p", true⟩]

/-- Descending-height comparator of the final sort of `getOptimalQualities`
(src/lib/analyzer.js line 456, `(a, b) => b.height - a.height`): `a` may come
before `b` exactly when its height is not smaller. -/
def qualityDescLE (a b : Quality) : Bool := decide (b.height ≤ a.height)

/-- Shallow embedding of `getOptimalQualities(sourceHeight, minQuality)` from
src/lib/analyzer.js lines 415-459 (the most complete variant; the earlier copy
at lines 137-157 differs only in a smaller catalog and in falling back to the
catalog head instead of its tail).  JS `Array.prototype.sort` is stable, as is
`List.mergeSort`. -/
def getOptimalQualities (sourceHeight : ℕ) (minQuality : ℕ) : List Quality :=
  let validQualities := allQualities.filter (fun q => q.height ≤ sourceHeight)
  let minQualities := validQualities.filter (fun q => minQuality ≤ q.height)
  if minQualities.isEmpty then
    match allQualities.find? (fun q => q.height == minQuality) with
    | some minQualityObj => [minQualityObj]
    | none =>
      match validQualities.getLast? with
      | some lowest => [lowest]
      | none => [allQualities.getLast (by decide)]
  else
    minQualities.mergeSort qualityDescLE

/-! ### Claim C5 -/

/-- Modelled from the spec words of Scenario C, for comparison with the code:
the empirical-formula value `round(720 * 720 * 0.000096 * 50) * 1.0` clamped
to the band `[max(50, 144), 10000]`. -/
def scenarioCClaimValue : ℚ :=
  max (max 50 144) (min 10000 ((jsRound ((720 : ℚ) * 720 * (96/1000000) * 50) : ℚ) * 1))

/-! ### Manifest assembly and `Promise.all` delivery (claim C2)

`transcodeVideo` (src/lib/transcoder.js lines 690-725) maps the quality ladder
to an array of promises and awaits `Promise.all(promises)`.  `Promise.all`
resolves with results placed at the index of the originating promise, whatever
order the promises settle in.  This is modelled by slot delivery: each
completion event writes the fragment of job `i` into slot `i`, and the
resolved array is the slots read out in index order. -/

/-- The per-rendition record resolved by `processQualityLevel`
(src/lib/transcoder.js line 918, `resolve({ masterEntry, quality })`). -/
structure Fragment where
  height : ℕ
  masterEntry : String
  deriving Repr, DecidableEq

/-- Master playlist header (src/lib/transcoder.js lines 620-622). -/
def masterHeader : String := "#EXTM3U\n#EXT-X-VERSION:3\n#EXT-X-INDEPENDENT-SEGMENTS\n\n"

/-- The master playlist built from fragments in ladder order
(src/lib/transcoder.js lines 718-720). -/
def assembleMaster (frags : List Fragment) : String :=
  masterHeader ++ String.join (frags.map Fragment.masterEntry)

/-- Slot-indexed delivery of `Promise.all`: starting from unresolved slots,
the completion events listed in `order` each write the result of job `i` into
slot `i`. -/
def promiseAllDeliver (frags : List Fragment) (order : List ℕ) : List (Option Fragment) :=
  order.foldl (fun acc i => acc.set i frags[i]?) (List.replicate frags.length none)

/-- The manifest obtained from a run whose jobs completed in the order given:
the settled slots, read out in index order, are assembled. -/
def assembleFromCompletion (frags : List Fragment) (order : List ℕ) : String :=
  assembleMaster (promiseAllDeliver frags order).reduceOption

/-! ### transcodeVideo run model (claims C7, C8, C10)

`transcodeVideo` (src/lib/transcoder.js lines 476-743) is modelled as a
function from a run configuration to the final outcome together with the list
of externally visible file-system effects (download of a URL source, write of
the master playlist, removal of the temporary download).  The external
encoder is an oracle: `encodeFailure` gives, per target height, the error
message of a failing encode, or `none` when the encode succeeds, in which
case `processQualityLevel` resolves the deterministically computed
`{ masterEntry, quality }` record. -/

/-- The relevant fields of the source descriptor resolved by `analyzeSource`
(src/lib/analyzer.js; the `sourceQuality`, codec and color fields only feed
the CRF chosen for the encoder command and never reach the manifest). -/
structure SourceInfo where
  width : ℕ
  height : ℕ
  aspectRatio : ℚ
  fps : ℚ
  videoBitrate : Option ℚ
  deriving Repr, DecidableEq

/-- The conservative default descriptor used when analysis is skipped or
fails (src/lib/transcoder.js lines 572-579 and 583-590). -/
def defaultSourceInfo : SourceInfo :=
  { width := 1920, height := 1080, aspectRatio := 16/9, fps := 30, videoBitrate := none }

/-- Externally visible file-system effects of a run. -/
inductive FsEvent where
  | download
  | writeMasterPlaylist (content : String)
  | removeTempSource
  deriving Repr, DecidableEq

/-- The three scheduling policies of `transcodeVideo`
(src/lib/transcoder.js lines 652-710). -/
inductive Policy where
  | unlimitedParallel
  | capped (maxConcurrent : ℕ)
  | sequential
  deriving Repr, DecidableEq

/-- A run configuration of `transcodeVideo` together with the outcomes of its
external collaborators. -/
structure RunConfig where
  inputIsUrl : Bool
  skipAnalysis : Bool
  analysis : Except String SourceInfo
  minQuality : ℕ
  bandwidthRatio : ℚ
  policy : Policy
  encodeFailure : ℕ → Option String

/-- The master playlist entry computed by `processQualityLevel`
(src/lib/transcoder.js lines 785-808). -/
def masterEntryFor (q : Quality) (src : SourceInfo) (bandwidthRatio : ℚ) : String :=
  let res := getResolutionPreset (q.height : ℤ) src.aspectRatio
  let bitrate := calculateOptimizedBitrate (q.height : ℚ) src.videoBitrate
    (some (src.height : ℚ)) bandwidthRatio
  "#EXT-X-STREAM-INF:BANDWIDTH=" ++ toString (bitrate * 1000) ++ ",RESOLUTION=" ++
    toString res.width ++ "x" ++ toString res.height ++ ",NAME=\"" ++ q.name ++
    "\"\nplaylist_" ++ toString q.height ++ ".m3u8\n\n"

/-- One encode job (src/lib/transcoder.js lines 777-929): the external
encoder either rejects with an error or the promise resolves with the
fragment record (the source passes the relevant options individually). -/
def processQualityLevel (encodeFailure : ℕ → Option String) (bandwidthRatio : ℚ)
    (src : SourceInfo) (q : Quality) : Except String Fragment :=
  match encodeFailure q.height with
  | some e => .error e
  | none => .ok ⟨q.height, masterEntryFor q src bandwidthRatio⟩

/-- Result view of `Promise.all`: the array of results in input order when
every promise fulfils, otherwise a single rejection. -/
def promiseAllE {ε α : Type} : List (Except ε α) → Except ε (List α)
  | [] => .ok []
  | x :: xs =>
    match x with
    | .error e => .error e
    | .ok a => (promiseAllE xs).map (a :: ·)

/-- The batch partition of `processWithConcurrencyLimit`
(src/lib/transcoder.js lines 749-750, `qualities.slice(i, i + maxConcurrent)`
for `i = 0, maxConcurrent, ...`), written head-explicitly so the recursion
always terminates; for `maxConcurrent ≥ 1` it is exactly the slice loop of
the source (the source loops forever on `maxConcurrent = 0`). -/
def chunksOf {α : Type} (cap : ℕ) : List α → List (List α)
  | [] => []
  | x :: xs => (x :: xs.take (cap - 1)) :: chunksOf cap (xs.drop (cap - 1))
  termination_by l => l.length
  decreasing_by simp only [List.length_drop, List.length_cons]; omega

/-- Sequential processing (src/lib/transcoder.js lines 652-672): one job at a
time, aborting at the first failure. -/
def sequentialRun (encodeFailure : ℕ → Option String) (bandwidthRatio : ℚ)
    (src : SourceInfo) : List Quality → Except String (List Fragment)
  | [] => .ok []
  | q :: rest =>
    match processQualityLevel encodeFailure bandwidthRatio src q with
    | .error e => .error e
    | .ok f => (sequentialRun encodeFailure bandwidthRatio src rest).map (f :: ·)

/-- Batched processing of `processWithConcurrencyLimit`
(src/lib/transcoder.js lines 745-775): each batch runs under `Promise.all`,
batches strictly in sequence, a failing batch aborting the rest. -/
def cappedRun (encodeFailure : ℕ → Option String) (bandwidthRatio : ℚ)
    (src : SourceInfo) : List (List Quality) → Except String (List Fragment)
  | [] => .ok []
  | b :: rest =>
    match promiseAllE (b.map (processQualityLevel encodeFailure bandwidthRatio src)) with
    | .error e => .error e
    | .ok fs => (cappedRun encodeFailure bandwidthRatio src rest).map (fs ++ ·)

/-- Dispatch of the ladder under the selected policy
(src/lib/transcoder.js lines 652-710). -/
def runJobs (policy : Policy) (encodeFailure : ℕ → Option String) (bandwidthRatio : ℚ)
    (src : SourceInfo) (qs : List Quality) : Except String (List Fragment) :=
  match policy with
  | .unlimitedParallel => promiseAllE (qs.map (processQualityLevel encodeFailure bandwidthRatio src))
  | .capped n => cappedRun encodeFailure bandwidthRatio src (chunksOf n qs)
  | .sequential => sequentialRun encodeFailure bandwidthRatio src qs

/-- The source descriptor a run works with (src/lib/transcoder.js lines
564-591): the probe result, or the conservative default when analysis is
skipped or the probe fails. -/
def effectiveSource (cfg : RunConfig) : SourceInfo :=
  if cfg.skipAnalysis then defaultSourceInfo
  else
    match cfg.analysis with
    | .ok s => s
    | .error _ => defaultSourceInfo

/-- Body of `transcodeVideo` after the source descriptor is resolved
(src/lib/transcoder.js lines 593-737): select the ladder, run the jobs under
the policy, and only on overall success write the master playlist and remove
the temporary download; any failure is rethrown once as an aggregate
`Transcoding failed:` error, skipping both the playlist write and the cleanup
(there is no `finally` block in the source). -/
def transcodeCore (inputIsUrl : Bool) (policy : Policy) (encodeFailure : ℕ → Option String)
    (minQuality : ℕ) (bandwidthRatio : ℚ) (src : SourceInfo) :
    Except String Unit × List FsEvent :=
  let ev0 : List FsEvent := if inputIsUrl then [.download] else []
  let qs := getOptimalQualities src.height minQuality
  match runJobs policy encodeFailure bandwidthRatio src qs with
  | .error e => (.error ("Transcoding failed: " ++ e), ev0)
  | .ok frags =>
    let master := masterHeader ++ String.join (frags.map Fragment.masterEntry)
    let ev1 := ev0 ++ [.writeMasterPlaylist master]
    let ev2 := if inputIsUrl then ev1 ++ [.removeTempSource] else ev1
    (.ok (), ev2)

/-- Shallow embedding of `transcodeVideo` (src/lib/transcoder.js lines
476-743): download a URL input, resolve the source descriptor, then run the
core pipeline. -/
def transcodeVideoM (cfg : RunConfig) : Except String Unit × List FsEvent :=
  transcodeCore cfg.inputIsUrl cfg.policy cfg.encodeFailure cfg.minQuality
    cfg.bandwidthRatio (effectiveSource cfg)

/-- Witness configuration for C7: a local 1080p-default run whose single
2160p fallback job fails. -/
def cfgC7 : RunConfig :=
  { inputIsUrl := false, skipAnalysis := true, analysis := .ok defaultSourceInfo,
    minQuality := 2160, bandwidthRatio := 1, policy := .unlimitedParallel,
    encodeFailure := fun _ => some "encoder crashed" }

/-! ### Claim C8 -/

/-- Counterexample configuration for C8: a URL input whose download completes
and whose single job then fails. -/
def cfgC8fail : RunConfig :=
  { inputIsUrl := true, skipAnalysis := true, analysis := .ok defaultSourceInfo,
    minQuality := 2160, bandwidthRatio := 1, policy := .unlimitedParallel,
    encodeFailure := fun _ => some "disk full" }

/-- Witness configuration for C8: the same URL run with a succeeding job. -/
def cfgC8ok : RunConfig :=
  { inputIsUrl := true, skipAnalysis := true, analysis := .ok defaultSourceInfo,
    minQuality := 2160, bandwidthRatio := 1, policy := .unlimitedParallel,
    encodeFailure := fun _ => none }

/-! ### Scheduling trace of `processWithConcurrencyLimit` (claim C9)

`processWithConcurrencyLimit` (src/lib/transcoder.js lines 745-775) slices
the ladder into consecutive batches of at most `maxConcurrent` renditions and
awaits `Promise.all` of each batch before slicing the next.  The observable
scheduling behaviour is modelled as a trace of dispatch and settle events,
each tagged with the (ghost) index of its batch.  Within a failing batch the
settle order is modelled as list order (the claim does not constrain
within-batch completion order); `await Promise.all` returns from a fully
successful batch only after every job of the batch settled, and a rejection
makes the surrounding function throw, so no later batch is ever sliced. -/

/-- One encode job of the trace model: its rendition height and the outcome
of its external encoder invocation. -/
structure EncodeJob where
  height : ℕ
  outcome : Except String String
  deriving Repr

/-- A scheduling event, tagged with the index of the batch it belongs to. -/
inductive SchedEv where
  | dispatch (batch : ℕ) (height : ℕ)
  | settle (batch : ℕ) (height : ℕ)
  deriving Repr, DecidableEq

/-- True when every job of the batch fulfils. -/
def batchOk (b : List EncodeJob) : Bool :=
  b.all fun j =>
    match j.outcome with
    | .ok _ => true
    | .error _ => false

/-- Settle events of a failing batch, up to and including its first
rejection; the remaining jobs are still in flight when `Promise.all`
rejects. -/
def settlesUntilFail (k : ℕ) : List EncodeJob → List SchedEv
  | [] => []
  | j :: rest =>
    SchedEv.settle k j.height ::
      (match j.outcome with
       | .ok _ => settlesUntilFail k rest
       | .error _ => [])

/-- Trace of the batch loop of `processWithConcurrencyLimit`, starting at
batch index `k`: each batch dispatches all of its jobs, then (when the batch
fulfils) all of them settle and the next batch runs; a failing batch ends the
trace. -/
def runBatchesTrace (k : ℕ) : List (List EncodeJob) → List SchedEv
  | [] => []
  | b :: rest =>
    b.map (fun j => SchedEv.dispatch k j.height) ++
      (if batchOk b then
        b.map (fun j => SchedEv.settle k j.height) ++ runBatchesTrace (k + 1) rest
      else settlesUntilFail k b)

/-- The scheduling trace of `processWithConcurrencyLimit(qualities, ...,
maxConcurrent, ...)`. -/
def processWithConcurrencyLimitTrace (cap : ℕ) (jobs : List EncodeJob) : List SchedEv :=
  runBatchesTrace 0 (chunksOf cap jobs)

/-- Phase rank of an event: all dispatches of batch `k` come in phase `2k`,
its settles in phase `2k + 1`. -/
def evRank : SchedEv → ℕ
  | .dispatch b _ => 2 * b
  | .settle b _ => 2 * b + 1

/-- Witness jobs for C9: five renditions, all succeeding. -/
def jobsC9 : List EncodeJob :=
  [⟨1080, .ok "a"⟩, ⟨720, .ok "b"⟩, ⟨540, .ok "c"⟩, ⟨480, .ok "d"⟩, ⟨360, .ok "e"⟩]

theorem jsRound_mono {a b : ℚ} (h : a ≤ b) : jsRound a ≤ jsRound b :=
  Int.floor_le_floor (by linarith)

/-! ### Claim C1 -/

theorem allQualities_sorted : allQualities.Pairwise (fun a b => b.height < a.height) := by
  decide

/-- C1 counterexample: the claim says the ladder never contains an entry whose
height exceeds the source height, but `getOptimalQualities 100 360` takes the
empty-filter fallback and returns the 360p catalog entry, which upscales a
100-pixel-high source. -/
theorem getOptimalQualities_upscale_counterexample :
    ∃ q ∈ getOptimalQualities 100 360, 100 < q.height := by
  decide

/-- C1 amended: for every sourceHeight `H` and minQuality `M` the ladder is
non-empty and sorted strictly descending by height; the no-upscale bound
`height ≤ H` holds whenever some catalog height lies in `[M, H]` (when both
filters empty out, the fallback may return the single `M`-entry or the lowest
catalog entry even above `H`). -/
theorem getOptimalQualities_amended (H M : ℕ) :
    getOptimalQualities H M ≠ [] ∧
    (getOptimalQualities H M).Pairwise (fun a b => b.height < a.height) ∧
    ((∃ q ∈ allQualities, M ≤ q.height ∧ q.height ≤ H) →
      ∀ q ∈ getOptimalQualities H M, q.height ≤ H) := by
  have hvalid := allQualities_sorted.filter (fun q => decide (q.height ≤ H))
  have hmin := hvalid.filter (fun q => decide (M ≤ q.height))
  unfold getOptimalQualities
  by_cases hemp :
      ((allQualities.filter (fun q => q.height ≤ H)).filter (fun q => M ≤ q.height)).isEmpty
  · simp only [hemp, if_true]
    have himp : ¬ ∃ q ∈ allQualities, M ≤ q.height ∧ q.height ≤ H := by
      rintro ⟨q, hq, hM, hH⟩
      have : q ∈ (allQualities.filter (fun q => q.height ≤ H)).filter
          (fun q => M ≤ q.height) := by
        rw [List.mem_filter]
        exact ⟨List.mem_filter.mpr ⟨hq, by simpa using hH⟩, by simpa using hM⟩
      rw [List.isEmpty_iff] at hemp
      simp [hemp] at this
    split
    · exact ⟨by simp, List.pairwise_singleton _ _, fun h => absurd h himp⟩
    · split
      · exact ⟨by simp, List.pairwise_singleton _ _, fun h => absurd h himp⟩
      · exact ⟨by simp, List.pairwise_singleton _ _, fun h => absurd h himp⟩
  · rw [Bool.not_eq_true] at hemp
    simp only [hemp, Bool.false_eq_true, if_false]
    have hsorted : ((allQualities.filter (fun q => q.height ≤ H)).filter
        (fun q => M ≤ q.height)).Pairwise (fun a b => qualityDescLE a b) := by
      refine hmin.imp ?_
      intro a b hab
      simp only [qualityDescLE, decide_eq_true_eq]
      omega
    rw [List.mergeSort_of_sorted hsorted]
    refine ⟨?_, hmin, fun _ q hq => ?_⟩
    · intro h
      rw [h] at hemp
      simp at hemp
    · have := (List.mem_filter.mp hq).1
      simpa using (List.mem_filter.mp this).2

/-- Witness for the amended C1 at H = 1080, M = 360. -/
theorem getOptimalQualities_amended_witness :
    (∃ q ∈ allQualities, 360 ≤ q.height ∧ q.height ≤ 1080) ∧
    (∀ q ∈ getOptimalQualities 1080 360, q.height ≤ 1080) :=
  ⟨by decide, (getOptimalQualities_amended 1080 360).2.2 (by decide)⟩

/-! ### Claim C6 -/

theorem evenize_even (n : ℤ) : Even (if n % 2 = 0 then n else n + 1) := by
  rcases Int.emod_two_eq n with h | h
  · rw [if_pos h]
    exact Int.even_iff.mpr h
  · rw [if_neg (by omega)]
    refine Int.even_add_one.mpr ?_
    rw [Int.even_iff]
    omega

theorem even_max_16 {n : ℤ} (h : Even n) : Even (max 16 n) := by
  rcases le_total 16 n with h' | h'
  · rwa [max_eq_right h']
  · rw [max_eq_left h']
    decide

/-- C6: for every target height and source aspect ratio, the dimensions
produced by `getResolutionPreset` are even and at least 16. -/
theorem getResolutionPreset_even_min (targetHeight : ℤ) (sourceAspectRatio : ℚ) :
    Even (getResolutionPreset targetHeight sourceAspectRatio).width ∧
    16 ≤ (getResolutionPreset targetHeight sourceAspectRatio).width ∧
    Even (getResolutionPreset targetHeight sourceAspectRatio).height ∧
    16 ≤ (getResolutionPreset targetHeight sourceAspectRatio).height := by
  unfold getResolutionPreset
  exact ⟨even_max_16 (evenize_even _), le_max_left _ _,
    even_max_16 (evenize_even _), le_max_left _ _⟩

/-- C5: with unknown source bitrate and height, target height 720 and
bandwidth ratio 1.0, `calculateOptimizedBitrate` returns exactly the value the
spec describes (both sides evaluate to 2488; the code clamps at the 4000 tier
for 720p rather than the 10000 tier named by the spec, but 2488 is below
either bound). -/
theorem calculateOptimizedBitrate_scenarioC :
    (calculateOptimizedBitrate 720 none none 1 : ℚ) = scenarioCClaimValue ∧
    calculateOptimizedBitrate 720 none none 1 = 2488 := by
  constructor <;>
    norm_num [calculateOptimizedBitrate, bitrateNoSource, numTruthy, maxBitrateNoSource,
      scenarioCClaimValue, jsRound]

/-! ### Claim C4 -/

/-- C4 evaluation: 27 fps is not a standard frame rate, yet `getGOPSize`
returns the table value 50 of the nearest standard rate 25 instead of
`round(27 * 2) = 54`: the dynamic fallback of the source is unreachable
because the closest-key lookup always succeeds. -/
theorem getGOPSize_nonstandard_27 :
    getGOPSize 27 = 50 ∧ jsRound (27 * 2) = 54 ∧ (50 : ℤ) ≠ 54 := by
  refine ⟨?_, by norm_num [jsRound], by decide⟩
  norm_num [getGOPSize, closestStandardFPS, gopMap, jsRound, abs]

/-! ### Claim C3 -/

set_option maxHeartbeats 1000000 in
theorem maxBitrateNoSource_mono {t1 t2 : ℚ} (h : t1 ≤ t2) :
    maxBitrateNoSource t1 ≤ maxBitrateNoSource t2 := by
  unfold maxBitrateNoSource
  split_ifs <;> linarith

theorem compressionFactor_mono {r1 r2 : ℚ} (h : r1 ≤ r2) :
    compressionFactor r1 ≤ compressionFactor r2 := by
  unfold compressionFactor
  split_ifs <;> linarith

theorem compressionFactor_nonneg (r : ℚ) : 0 ≤ compressionFactor r := by
  unfold compressionFactor
  split_ifs <;> norm_num

theorem minFraction_mono {t1 t2 : ℚ} (h : t1 ≤ t2) : minFraction t1 ≤ minFraction t2 := by
  unfold minFraction
  split_ifs <;> linarith

theorem minFraction_nonneg (t : ℚ) : 0 ≤ minFraction t := by
  unfold minFraction
  split_ifs <;> norm_num

theorem maxMultiple_mono {t1 t2 : ℚ} (h : t1 ≤ t2) : maxMultiple t1 ≤ maxMultiple t2 := by
  unfold maxMultiple
  split_ifs <;> linarith

theorem bitrateNoSource_mono {t1 t2 ratio : ℚ} (h0 : 0 ≤ t1) (h12 : t1 ≤ t2)
    (hr : 0 ≤ ratio) : bitrateNoSource t1 ratio ≤ bitrateNoSource t2 ratio := by
  unfold bitrateNoSource
  apply jsRound_mono
  have hbase : jsRound (t1 * t1 * (96/1000000) * 50) ≤ jsRound (t2 * t2 * (96/1000000) * 50) :=
    jsRound_mono (by nlinarith)
  have hbase0 : (0 : ℤ) ≤ jsRound (t1 * t1 * (96/1000000) * 50) := by
    rw [jsRound, Int.le_floor]
    push_cast
    nlinarith
  apply max_le_max
  · exact max_le_max le_rfl (by linarith)
  · refine min_le_min (maxBitrateNoSource_mono h12) ?_
    have : (jsRound (t1 * t1 * (96/1000000) * 50) : ℚ) ≤
        (jsRound (t2 * t2 * (96/1000000) * 50) : ℚ) := by exact_mod_cast hbase
    exact mul_le_mul_of_nonneg_right this hr

theorem bitrateKnownSource_mono {t1 t2 B S ratio : ℚ} (hB : 0 ≤ B) (hS : 0 < S)
    (hr : 0 ≤ ratio) (h0 : 0 ≤ t1) (h12 : t1 ≤ t2) :
    bitrateKnownSource t1 B S ratio ≤ bitrateKnownSource t2 B S ratio := by
  unfold bitrateKnownSource
  apply jsRound_mono
  have hrr : t1 / S ≤ t2 / S := (div_le_div_iff_of_pos_right hS).mpr h12
  have hc := compressionFactor_mono hrr
  have hc0 := compressionFactor_nonneg (t1 / S)
  have hsq : t1 * t1 / (S * S) ≤ t2 * t2 / (S * S) :=
    (div_le_div_iff_of_pos_right (mul_pos hS hS)).mpr (by nlinarith)
  have hsq0 : 0 ≤ t1 * t1 / (S * S) := div_nonneg (mul_self_nonneg t1) (mul_self_nonneg S)
  have hsq2 : 0 ≤ B * (t2 * t2 / (S * S)) :=
    mul_nonneg hB (div_nonneg (mul_self_nonneg t2) (mul_self_nonneg S))
  have hscaled : B * (t1 * t1 / (S * S)) * compressionFactor (t1 / S) ≤
      B * (t2 * t2 / (S * S)) * compressionFactor (t2 / S) :=
    mul_le_mul (mul_le_mul_of_nonneg_left hsq hB) hc hc0 hsq2
  apply max_le_max
  · refine max_le_max le_rfl ?_
    have h2 : 0 ≤ t2 := le_trans h0 h12
    calc t1 * minFraction t1 ≤ t2 * minFraction t1 :=
          mul_le_mul_of_nonneg_right h12 (minFraction_nonneg t1)
      _ ≤ t2 * minFraction t2 := mul_le_mul_of_nonneg_left (minFraction_mono h12) h2
  · exact min_le_min (mul_le_mul_of_nonneg_left (maxMultiple_mono h12) hB)
      (mul_le_mul_of_nonneg_right hscaled hr)

/-- C3: holding the source descriptor and the bandwidth ratio fixed (bitrate
known or unknown), `calculateOptimizedBitrate` is monotone non-decreasing in
the target height.  The hypotheses state the domain of the inputs: target
heights, a known source bitrate and known source height are non-negative
numbers, as is the bandwidth ratio (the CLI restricts it to [0.1, 2.0]). -/
theorem calculateOptimizedBitrate_mono (sourceBitrate sourceHeight : Option ℚ)
    {bandwidthRatio t1 t2 : ℚ} (hB : 0 ≤ sourceBitrate.getD 0)
    (hS : 0 ≤ sourceHeight.getD 0) (hr : 0 ≤ bandwidthRatio) (h0 : 0 ≤ t1) (h12 : t1 < t2) :
    calculateOptimizedBitrate t1 sourceBitrate sourceHeight bandwidthRatio ≤
      calculateOptimizedBitrate t2 sourceBitrate sourceHeight bandwidthRatio := by
  unfold calculateOptimizedBitrate
  split_ifs with h
  · have hSpos : 0 < sourceHeight.getD 0 := by
      rcases sourceHeight with _ | v
      · simp [numTruthy] at h
      · have : v ≠ 0 := by
          have := (Bool.and_eq_true _ _).mp h |>.2
          simpa [numTruthy] using this
        simp only [Option.getD_some] at hS ⊢
        exact lt_of_le_of_ne hS (Ne.symm this)
    exact bitrateKnownSource_mono hB hSpos hr h0 h12.le
  · exact bitrateNoSource_mono h0 h12.le hr

/-- Witness for C3 at a concrete source (5000 kbps, 1080p), ratio 1,
target heights 360 < 720. -/
theorem calculateOptimizedBitrate_mono_witness :
    (0 : ℚ) ≤ (some (5000 : ℚ)).getD 0 ∧ (0 : ℚ) ≤ (some (1080 : ℚ)).getD 0 ∧
    (0 : ℚ) ≤ 1 ∧ (0 : ℚ) ≤ 360 ∧ (360 : ℚ) < 720 ∧
    calculateOptimizedBitrate 360 (some 5000) (some 1080) 1 ≤
      calculateOptimizedBitrate 720 (some 5000) (some 1080) 1 :=
  ⟨by norm_num, by norm_num, by norm_num, by norm_num, by norm_num,
    calculateOptimizedBitrate_mono (some 5000) (some 1080) (by norm_num) (by norm_num)
      (by norm_num) (by norm_num) (by norm_num)⟩

theorem foldl_set_length {β : Type} (f : ℕ → β) (order : List ℕ) (init : List β) :
    (order.foldl (fun acc i => acc.set i (f i)) init).length = init.length := by
  induction order generalizing init with
  | nil => rfl
  | cons x rest ih => simp [List.foldl_cons, ih]

theorem foldl_set_get_not_mem {β : Type} (f : ℕ → β) {order : List ℕ} {j : ℕ}
    (h : j ∉ order) (init : List β) :
    (order.foldl (fun acc i => acc.set i (f i)) init)[j]? = init[j]? := by
  induction order generalizing init with
  | nil => rfl
  | cons x rest ih =>
    have hx : x ≠ j := fun e => h (e ▸ List.mem_cons_self x rest)
    rw [List.foldl_cons, ih (fun hm => h (List.mem_cons_of_mem _ hm)),
      List.getElem?_set_ne hx]

theorem foldl_set_get_mem {β : Type} (f : ℕ → β) {order : List ℕ} {j : ℕ}
    (hj : j ∈ order) (init : List β) (hlen : j < init.length) :
    (order.foldl (fun acc i => acc.set i (f i)) init)[j]? = some (f j) := by
  induction order generalizing init with
  | nil => cases hj
  | cons x rest ih =>
    rw [List.foldl_cons]
    by_cases hr : j ∈ rest
    · exact ih hr _ (by simpa using hlen)
    · have hx : x = j := by
        rcases List.mem_cons.mp hj with h | h
        · exact h.symm
        · exact absurd h hr
      subst hx
      rw [foldl_set_get_not_mem f hr, List.getElem?_set_self hlen]

/-- Delivery through any complete permutation of completion events fills every
slot with its own job, in index order. -/
theorem promiseAllDeliver_perm {frags : List Fragment} {order : List ℕ}
    (h : order.Perm (List.range frags.length)) :
    promiseAllDeliver frags order = frags.map some := by
  apply List.ext_getElem?
  intro j
  by_cases hj : j < frags.length
  · have hmem : j ∈ order := h.mem_iff.mpr (List.mem_range.mpr hj)
    rw [promiseAllDeliver, foldl_set_get_mem _ hmem _ (by simpa using hj)]
    simp [List.getElem?_eq_getElem hj]
  · have hnot : j ∉ order := fun hm => hj (List.mem_range.mp (h.mem_iff.mp hm))
    rw [promiseAllDeliver, foldl_set_get_not_mem _ hnot,
      List.getElem?_eq_none (by simpa using Nat.le_of_not_lt hj),
      List.getElem?_eq_none (by simpa using Nat.le_of_not_lt hj)]

theorem reduceOption_map_some {α : Type} (l : List α) : (l.map some).reduceOption = l := by
  induction l with
  | nil => rfl
  | cons x xs ih => simp [List.reduceOption_cons_of_some, ih]

/-- C2: for a ladder of fragments (strictly descending by height, as the
ladder selector produces) and any permutation of the job-completion order, the
assembled master manifest is the same string, and the stream-descriptor
entries it contains stand in strictly descending height order. -/
theorem assemble_completion_invariant (frags : List Fragment) (order : List ℕ)
    (hperm : order.Perm (List.range frags.length))
    (hdesc : frags.Pairwise (fun a b => b.height < a.height)) :
    assembleFromCompletion frags order = assembleMaster frags ∧
    ((promiseAllDeliver frags order).reduceOption).Pairwise
      (fun a b => b.height < a.height) := by
  rw [assembleFromCompletion, promiseAllDeliver_perm hperm, reduceOption_map_some]
  exact ⟨rfl, hdesc⟩

/-- Witness for C2: two fragments delivered in reversed completion order. -/
theorem assemble_completion_invariant_witness :
    ([1, 0].Perm (List.range [Fragment.mk 720 "A\n", Fragment.mk 480 "B\n"].length)) ∧
    assembleFromCompletion [Fragment.mk 720 "A\n", Fragment.mk 480 "B\n"] [1, 0] =
      assembleMaster [Fragment.mk 720 "A\n", Fragment.mk 480 "B\n"] :=
  ⟨by decide,
    (assemble_completion_invariant [Fragment.mk 720 "A\n", Fragment.mk 480 "B\n"] [1, 0]
      (by decide) (by decide)).1⟩

/-! ### Claim C7 -/

theorem promiseAllE_error {ε α : Type} {l : List (Except ε α)}
    (h : ∃ x ∈ l, ∃ e, x = Except.error e) : ∃ e, promiseAllE l = .error e := by
  induction l with
  | nil =>
    rcases h with ⟨x, hx, _⟩
    cases hx
  | cons y ys ih =>
    rcases h with ⟨x, hx, e, rfl⟩
    rcases List.mem_cons.mp hx with rfl | hmem
    · exact ⟨e, rfl⟩
    · cases y with
      | error e2 => exact ⟨e2, rfl⟩
      | ok a =>
        rcases ih ⟨_, hmem, e, rfl⟩ with ⟨e2, h2⟩
        exact ⟨e2, by simp [promiseAllE, h2, Except.map]⟩

/-- C7: under the unlimited-parallel policy, if at least one encode job of the
selected ladder fails, the run ends in a single aggregate `Transcoding
failed:` error and the master playlist is never written. -/
theorem transcodeVideo_unlimited_failure (cfg : RunConfig)
    (hpol : cfg.policy = .unlimitedParallel)
    (hfail : ∃ q ∈ getOptimalQualities (effectiveSource cfg).height cfg.minQuality,
      ∃ e, cfg.encodeFailure q.height = some e) :
    (∃ msg, (transcodeVideoM cfg).1 = .error msg) ∧
    ∀ c, FsEvent.writeMasterPlaylist c ∉ (transcodeVideoM cfg).2 := by
  have hjob : ∃ x ∈ (getOptimalQualities (effectiveSource cfg).height cfg.minQuality).map
      (processQualityLevel cfg.encodeFailure cfg.bandwidthRatio (effectiveSource cfg)),
      ∃ e, x = Except.error e := by
    rcases hfail with ⟨q, hq, e, he⟩
    exact ⟨_, List.mem_map_of_mem _ hq, e, by simp [processQualityLevel, he]⟩
  rcases promiseAllE_error hjob with ⟨e2, h2⟩
  have hrun : runJobs cfg.policy cfg.encodeFailure cfg.bandwidthRatio (effectiveSource cfg)
      (getOptimalQualities (effectiveSource cfg).height cfg.minQuality) = .error e2 := by
    rw [hpol]
    exact h2
  simp only [transcodeVideoM, transcodeCore, hrun]
  refine ⟨⟨_, rfl⟩, fun c hc => ?_⟩
  cases hu : cfg.inputIsUrl <;> simp [hu] at hc

/-- Witness for C7. -/
theorem transcodeVideo_unlimited_failure_witness :
    cfgC7.policy = .unlimitedParallel ∧
    (∃ q ∈ getOptimalQualities (effectiveSource cfgC7).height cfgC7.minQuality,
      ∃ e, cfgC7.encodeFailure q.height = some e) ∧
    (∃ msg, (transcodeVideoM cfgC7).1 = .error msg) :=
  ⟨rfl, ⟨⟨2160, "4K", true⟩, by decide, "encoder crashed", rfl⟩,
    (transcodeVideo_unlimited_failure cfgC7 rfl
      ⟨⟨2160, "4K", true⟩, by decide, "encoder crashed", rfl⟩).1⟩

/-- C8 counterexample: the claim says the temporary download is removed on
any run failure after the download completed, but on a failing run the model
of the code emits only the download event and never the cleanup (the cleanup
sits on the success path with no `finally`). -/
theorem transcodeVideo_no_cleanup_on_failure :
    (transcodeVideoM cfgC8fail).1 = .error "Transcoding failed: disk full" ∧
    (transcodeVideoM cfgC8fail).2 = [FsEvent.download] ∧
    FsEvent.removeTempSource ∉ (transcodeVideoM cfgC8fail).2 :=
  ⟨rfl, rfl, by decide⟩

/-- C8 amended: whenever the input is a URL and the run completes
successfully, the temporary download is removed before `transcodeVideo`
returns; on a run failure the temporary file is not removed. -/
theorem transcodeVideo_cleanup_on_success (cfg : RunConfig)
    (hurl : cfg.inputIsUrl = true)
    (hok : (transcodeVideoM cfg).1 = .ok ()) :
    FsEvent.removeTempSource ∈ (transcodeVideoM cfg).2 := by
  cases hrun : runJobs cfg.policy cfg.encodeFailure cfg.bandwidthRatio (effectiveSource cfg)
      (getOptimalQualities (effectiveSource cfg).height cfg.minQuality) with
  | error e => simp [transcodeVideoM, transcodeCore, hrun] at hok
  | ok frags => simp [transcodeVideoM, transcodeCore, hrun, hurl]

/-- Witness for the amended C8. -/
theorem transcodeVideo_cleanup_on_success_witness :
    cfgC8ok.inputIsUrl = true ∧ (transcodeVideoM cfgC8ok).1 = .ok () ∧
    FsEvent.removeTempSource ∈ (transcodeVideoM cfgC8ok).2 :=
  ⟨rfl, rfl, transcodeVideo_cleanup_on_success cfgC8ok rfl rfl⟩

/-! ### Claim C10 -/

/-- C10: with `skipAnalysis` false and a failing source probe,
`transcodeVideo` does not abort: the whole run behaves exactly as if the
probe had returned the conservative default descriptor, which is the
1920-by-1080, 16:9, 30 fps, unknown-bitrate source. -/
theorem transcodeVideo_analysis_fallback (cfg : RunConfig) (e : String) :
    transcodeVideoM { cfg with skipAnalysis := false, analysis := .error e } =
      transcodeVideoM { cfg with skipAnalysis := false, analysis := .ok defaultSourceInfo } ∧
    defaultSourceInfo =
      { width := 1920, height := 1080, aspectRatio := 16/9, fps := 30, videoBitrate := none } :=
  ⟨rfl, rfl⟩

theorem chunksOf_nil {α : Type} (cap : ℕ) : chunksOf cap ([] : List α) = [] := by
  rw [chunksOf.eq_def]

theorem chunksOf_cons {α : Type} (cap : ℕ) (x : α) (xs : List α) :
    chunksOf cap (x :: xs) =
      (x :: xs.take (cap - 1)) :: chunksOf cap (xs.drop (cap - 1)) := by
  rw [chunksOf.eq_def]

theorem chunksOf_flatten {α : Type} (cap : ℕ) : ∀ l : List α, (chunksOf cap l).flatten = l
  | [] => by rw [chunksOf_nil]; rfl
  | x :: xs => by
    rw [chunksOf_cons, List.flatten_cons, chunksOf_flatten cap (xs.drop (cap - 1)),
      List.cons_append, List.take_append_drop]
  termination_by l => l.length
  decreasing_by simp only [List.length_drop, List.length_cons]; omega

theorem chunksOf_mem_length {α : Type} (cap : ℕ) (hcap : 0 < cap) :
    ∀ l : List α, ∀ b ∈ chunksOf cap l, 0 < b.length ∧ b.length ≤ cap
  | [] => by rw [chunksOf_nil]; intro b hb; cases hb
  | x :: xs => by
    rw [chunksOf_cons]
    intro b hb
    rcases List.mem_cons.mp hb with rfl | h2
    · refine ⟨by simp, ?_⟩
      simp only [List.length_cons, List.length_take]
      omega
    · exact chunksOf_mem_length cap hcap (xs.drop (cap - 1)) b h2
  termination_by l => l.length
  decreasing_by simp only [List.length_drop, List.length_cons]; omega

theorem chunksOf_five {α : Type} (j1 j2 j3 j4 j5 : α) :
    chunksOf 2 [j1, j2, j3, j4, j5] = [[j1, j2], [j3, j4], [j5]] := by
  norm_num [chunksOf_cons, chunksOf_nil]

theorem settlesUntilFail_rank {k : ℕ} {b : List EncodeJob} {e : SchedEv}
    (h : e ∈ settlesUntilFail k b) : evRank e = 2 * k + 1 := by
  induction b with
  | nil => cases h
  | cons j rest ih =>
    rw [settlesUntilFail] at h
    rcases List.mem_cons.mp h with rfl | h2
    · rfl
    · cases ho : j.outcome with
      | ok a =>
        rw [ho] at h2
        exact ih h2
      | error e3 =>
        rw [ho] at h2
        cases h2

theorem runBatchesTrace_rank_ge {bs : List (List EncodeJob)} :
    ∀ {k : ℕ} {e : SchedEv}, e ∈ runBatchesTrace k bs → 2 * k ≤ evRank e := by
  induction bs with
  | nil => intro k e h; cases h
  | cons b rest ih =>
    intro k e h
    rw [runBatchesTrace] at h
    rcases List.mem_append.mp h with h1 | h2
    · rcases List.mem_map.mp h1 with ⟨j, _, rfl⟩
      exact le_refl _
    · by_cases hok : batchOk b
      · rw [if_pos hok] at h2
        rcases List.mem_append.mp h2 with h3 | h4
        · rcases List.mem_map.mp h3 with ⟨j, _, rfl⟩
          simp [evRank]
        · have := ih h4
          omega
      · rw [if_neg hok] at h2
        rw [settlesUntilFail_rank h2]
        omega

theorem pairwise_rank_const {l : List SchedEv} {c : ℕ} (h : ∀ e ∈ l, evRank e = c) :
    l.Pairwise (fun a b => evRank a ≤ evRank b) := by
  induction l with
  | nil => exact List.Pairwise.nil
  | cons x xs ih =>
    refine List.Pairwise.cons (fun y hy => ?_) (ih fun e he => h e (List.mem_cons_of_mem _ he))
    rw [h x (List.mem_cons_self _ _), h y (List.mem_cons_of_mem _ hy)]

theorem runBatchesTrace_sorted (bs : List (List EncodeJob)) :
    ∀ k : ℕ, (runBatchesTrace k bs).Pairwise (fun a b => evRank a ≤ evRank b) := by
  induction bs with
  | nil => intro k; exact List.Pairwise.nil
  | cons b rest ih =>
    intro k
    rw [runBatchesTrace]
    by_cases hok : batchOk b
    · rw [if_pos hok]
      refine List.pairwise_append.mpr ⟨?_, List.pairwise_append.mpr ⟨?_, ih (k + 1), ?_⟩, ?_⟩
      · exact pairwise_rank_const fun e he => by
          rcases List.mem_map.mp he with ⟨j, _, rfl⟩; rfl
      · exact pairwise_rank_const fun e he => by
          rcases List.mem_map.mp he with ⟨j, _, rfl⟩; rfl
      · intro x hx y hy
        rcases List.mem_map.mp hx with ⟨j, _, rfl⟩
        have h5 := runBatchesTrace_rank_ge hy
        have h6 : evRank (SchedEv.settle k j.height) = 2 * k + 1 := rfl
        rw [h6]
        omega
      · intro x hx y hy
        rcases List.mem_map.mp hx with ⟨j, _, rfl⟩
        have h6 : evRank (SchedEv.dispatch k j.height) = 2 * k := rfl
        rw [h6]
        rcases List.mem_append.mp hy with h3 | h4
        · rcases List.mem_map.mp h3 with ⟨j2, _, rfl⟩
          simp [evRank]
        · have h5 := runBatchesTrace_rank_ge h4
          omega
    · rw [if_neg hok]
      refine List.pairwise_append.mpr ⟨?_, ?_, ?_⟩
      · exact pairwise_rank_const fun e he => by
          rcases List.mem_map.mp he with ⟨j, _, rfl⟩; rfl
      · exact pairwise_rank_const fun e he => settlesUntilFail_rank he
      · intro x hx y hy
        rcases List.mem_map.mp hx with ⟨j, _, rfl⟩
        rw [settlesUntilFail_rank hy]
        simp only [evRank]
        omega

theorem dispatch_implies_settles {bs : List (List EncodeJob)} :
    ∀ {k n h : ℕ}, SchedEv.dispatch n h ∈ runBatchesTrace k bs →
      ∀ m, k ≤ m → m < n → ∀ j ∈ bs.getD (m - k) [],
        SchedEv.settle m j.height ∈ runBatchesTrace k bs := by
  induction bs with
  | nil => intro k n h hd; cases hd
  | cons b rest ih =>
    intro k n h hd m hkm hmn j hj
    rw [runBatchesTrace] at hd ⊢
    rcases List.mem_append.mp hd with h1 | h2
    · rcases List.mem_map.mp h1 with ⟨j2, _, heq⟩
      rw [SchedEv.dispatch.injEq] at heq
      omega
    · by_cases hok : batchOk b
      · rw [if_pos hok] at h2 ⊢
        rcases List.mem_append.mp h2 with h3 | h4
        · rcases List.mem_map.mp h3 with ⟨j2, _, heq⟩
          cases heq
        · rcases Nat.eq_or_lt_of_le hkm with rfl | hlt
          · have hj' : j ∈ b := by simpa using hj
            exact List.mem_append_right _
              (List.mem_append_left _ (List.mem_map_of_mem _ hj'))
          · have hgd : (b :: rest).getD (m - k) [] = rest.getD (m - (k + 1)) [] := by
              have hmk : m - k = (m - (k + 1)) + 1 := by omega
              rw [hmk, List.getD_cons_succ]
            have := ih h4 m (by omega) hmn j (by rwa [hgd] at hj)
            exact List.mem_append_right _ (List.mem_append_right _ this)
      · rw [if_neg hok] at h2
        have := settlesUntilFail_rank h2
        simp only [evRank] at this
        omega

/-- C9: under the capped-concurrency policy the ladder is partitioned into
consecutive batches of size at most the cap (5 renditions with cap 2 yield
batch sizes [2, 2, 1]), and the scheduling trace is phase-ordered: a dispatch
of batch `n` can only appear after all settles of every earlier batch `m`,
all of which are present in the trace. -/
theorem processWithConcurrencyLimit_batches (cap : ℕ) (jobs : List EncodeJob)
    (hcap : 0 < cap) :
    (chunksOf cap jobs).flatten = jobs ∧
    (∀ b ∈ chunksOf cap jobs, 0 < b.length ∧ b.length ≤ cap) ∧
    (jobs.length = 5 → cap = 2 → (chunksOf cap jobs).map List.length = [2, 2, 1]) ∧
    (processWithConcurrencyLimitTrace cap jobs).Pairwise (fun a b => evRank a ≤ evRank b) ∧
    (∀ n h, SchedEv.dispatch n h ∈ processWithConcurrencyLimitTrace cap jobs →
      ∀ m < n, ∀ j ∈ (chunksOf cap jobs).getD m [],
        SchedEv.settle m j.height ∈ processWithConcurrencyLimitTrace cap jobs) := by
  refine ⟨chunksOf_flatten cap jobs, chunksOf_mem_length cap hcap jobs, ?_, ?_, ?_⟩
  · intro hlen hcap2
    subst hcap2
    rcases jobs with _ | ⟨a, _ | ⟨b, _ | ⟨c, _ | ⟨d, _ | ⟨e, _ | ⟨f, tl⟩⟩⟩⟩⟩⟩ <;>
      simp only [List.length_cons, List.length_nil] at hlen <;> try omega
    rw [chunksOf_five]
    rfl
  · exact runBatchesTrace_sorted (chunksOf cap jobs) 0
  · intro n h hd m hm j hj
    have := dispatch_implies_settles hd m (Nat.zero_le m) hm j
      (by simpa using hj)
    exact this

/-- Witness for C9 at cap 2 over the five concrete renditions. -/
theorem processWithConcurrencyLimit_batches_witness :
    (0 < 2) ∧ (chunksOf 2 jobsC9).map List.length = [2, 2, 1] :=
  ⟨by decide, (processWithConcurrencyLimit_batches 2 jobsC9 (by decide)).2.2.1 rfl rfl⟩

end HLS
